import Mathlib

namespace Boggle

/-! ## Definitions: shallow embedding of src/app/play/page.tsx -/

/-- 2^32, the modulus of all JavaScript 32-bit integer arithmetic. -/
def m32 : Nat := 4294967296

/-- Shallow embedding of hashStringToSeed from src/app/play/page.tsx.
The input string is modelled as its list of UTF-16 code units.
Each JS step is reproduced with its implicit ToInt32 conversions made
explicit as reductions mod 2^32:
h = 1779033703 ^ str.length;
per character: h = Math.imul(h ^ c, 3432918353); h = (h &lt;&lt; 13) | (h >>> 19);
then the avalanche finisher. -/
def hashStringToSeed (s : List Nat) : Nat :=
  let h0 : Nat := 1779033703 ^^^ (s.length % m32)
  let hl : Nat := s.foldl
    (fun h c =>
      let h1 := ((h ^^^ (c % m32)) * 3432918353) % m32
      ((h1 <<< 13) % m32) ||| (h1 >>> 19))
    h0
  let h2 := ((hl ^^^ (hl >>> 16)) * 2246822507) % m32
  let h3 := ((h2 ^^^ (h2 >>> 13)) * 3266489909) % m32
  (h3 ^^^ (h3 >>> 16)) % m32

/-- Initial internal state of mulberry32: let t = seed || 1
(JS: 0 is falsy, so a zero seed is replaced by 1). -/
def mulberry32Init (seed : Nat) : Nat :=
  if seed = 0 then 1 else seed

/-- One call of the closure returned by mulberry32, returning
(new state, output numerator).  The output of the JS function is the
numerator divided by 4294967296.
JS body: t |= 0; t = (t + 0x6d2b79f5) | 0;
let r = Math.imul(t ^ (t >>> 15), 1 | t);
r = (r + Math.imul(r ^ (r >>> 7), 61 | r)) ^ r;
return ((r ^ (r >>> 14)) >>> 0) / 4294967296. -/
def mulberry32Step (t : Nat) : Nat × Nat :=
  let t1 := ((t % m32) + 0x6d2b79f5) % m32
  let r1 := ((t1 ^^^ (t1 >>> 15)) * (1 ||| t1)) % m32
  let r2 := (((r1 + (((r1 ^^^ (r1 >>> 7)) * (61 ||| r1)) % m32)) % m32) ^^^ r1)
  (t1, (r2 ^^^ (r2 >>> 14)) % m32)

/-- Internal state before the n-th draw (0-indexed). -/
def mulberry32State (seed : Nat) : Nat → Nat
  | 0 => mulberry32Init seed
  | n + 1 => (mulberry32Step (mulberry32State seed n)).1

/-- Numerator of the n-th draw: the 32-bit output word of the n-th call. -/
def mulberry32Out (seed : Nat) (n : Nat) : Nat :=
  (mulberry32Step (mulberry32State seed n)).2

/-- Value of the n-th draw, as the exact rational the JS double equals. -/
def mulberry32Val (seed : Nat) (n : Nat) : ℚ :=
  (mulberry32Out seed n : ℚ) / 4294967296

/-- The weighted letter table LETTER_BAG from src/app/play/page.tsx
(43 entries). -/
def LETTER_BAG : List String :=
  ["e", "e", "e", "e", "e", "e",
   "a", "a", "a", "a",
   "i", "i", "i",
   "o", "o", "o",
   "n", "n",
   "r", "r", "r",
   "t", "t", "t",
   "l", "l",
   "s", "s",
   "d", "d",
   "g", "b", "c", "m", "p", "f", "h", "v", "w", "y", "k", "x", "z"]

/-- JS array indexing LETTER_BAG[idx] where idx = Math.floor(r * len):
an out-of-range index (negative or too large) yields undefined,
modelled as none. -/
def bagAt (idx : Int) : Option String :=
  if 0 ≤ idx then LETTER_BAG.get? idx.toNat else none

/-- The qu-tile threshold 0.08 of generateGrid, as an exact rational
(see the header note on float fidelity). -/
def quChance : ℚ := 2 / 25

/-- Recursion of generateGrid over the remaining number of tiles; k is the
index of the next unconsumed draw of the stateful rng, here modelled as a
stream f of draw values.  Each position draws once; if the draw is below
the qu threshold the tile is "qu", otherwise a second draw selects a
letter-bag index. -/
def generateGridGo (f : Nat → ℚ) : Nat → Nat → List (Option String)
  | 0, _ => []
  | n + 1, k =>
    if f k < quChance then
      some "qu" :: generateGridGo f n (k + 1)
    else
      bagAt ⌊f (k + 1) * (LETTER_BAG.length : ℚ)⌋ :: generateGridGo f n (k + 2)

/-- Shallow embedding of generateGrid from src/app/play/page.tsx: 16 tiles,
drawn in order from the generator stream. -/
def generateGrid (f : Nat → ℚ) : List (Option String) :=
  generateGridGo f 16 0

/-- The composed pipeline of the grid useMemo in PlayPage:
generateGrid(mulberry32(hashStringToSeed(id))). -/
def gridOfId (s : List Nat) : List (Option String) :=
  generateGrid (mulberry32Val (hashStringToSeed s))

/-- Embedding of indexToCoord: row = floor(index / 4), col = index % 4. -/
def indexToCoord (index : Nat) : Nat × Nat :=
  (index / 4, index % 4)

/-- Shallow embedding of isAdjacent from src/app/play/page.tsx.
The JS Math.abs of a difference of numbers is modelled on Int. -/
def isAdjacent (a b : Nat) : Bool :=
  let dr := (((indexToCoord a).1 : Int) - ((indexToCoord b).1 : Int)).natAbs
  let dc := (((indexToCoord a).2 : Int) - ((indexToCoord b).2 : Int)).natAbs
  if dr = 0 ∧ dc = 0 then false
  else decide (max dr dc = 1)

/-- Embedding of normalizeWord: lowercase, then keep only the letters a-z
(the JS regex replace of every character outside a-z by nothing).  The
words of this application are ASCII, for which Char.toLower matches the
JS toLowerCase. -/
def normalizeWord (raw : String) : String :=
  ⟨(raw.data.map Char.toLower).filter fun c => decide ('a' ≤ c) && decide (c ≤ 'z')⟩

/-- Splitting of the raw dictionary text on the JS regex matching an
optional carriage return followed by a newline: every newline is a
separator, consuming one carriage return immediately before it. -/
def splitLinesAux : List Char → List Char → List (List Char)
  | [], cur => [cur.reverse]
  | '\r' :: '\n' :: rest, cur => cur.reverse :: splitLinesAux rest []
  | '\n' :: rest, cur => cur.reverse :: splitLinesAux rest []
  | c :: rest, cur => splitLinesAux rest (c :: cur)

def splitLines (s : String) : List String :=
  (splitLinesAux s.data []).map fun l => ⟨l⟩

/-- Embedding of the JS String.trim on a line: drop whitespace from both
ends. -/
def trimLine (s : String) : String :=
  ⟨((s.data.dropWhile Char.isWhitespace).reverse.dropWhile Char.isWhitespace).reverse⟩

/-- Test of the JS regex asserting the whole string consists of the
letters a-z (nonempty). -/
def isLowerAlpha (w : String) : Bool :=
  !w.data.isEmpty && w.data.all fun c => decide ('a' ≤ c) && decide (c ≤ 'z')

/-- The dictionary index: the two sets returned by buildDictionary. -/
structure Dict where
  words : Finset String
  prefixes : Finset String

/-- The proper chain of prefixes of w inserted by buildDictionary:
w.slice(0, i) for i = 1 .. w.length. -/
def prefixChain (w : String) : List String :=
  (List.range w.length).map fun i => ⟨w.data.take (i + 1)⟩

/-- One iteration of the buildDictionary loop body on a single line. -/
def addLine (d : Dict) (line : String) : Dict :=
  let w := normalizeWord (trimLine line)
  if w = "" ∨ w.length < 3 then d
  else if ¬ isLowerAlpha w then d
  else
    { words := insert w d.words,
      prefixes := (prefixChain w).foldl (fun ps p => insert p ps) d.prefixes }

/-- Shallow embedding of buildDictionary from src/app/play/page.tsx. -/
def buildDictionary (rawText : String) : Dict :=
  (splitLines rawText).foldl addLine ⟨∅, ∅⟩

/-- The invariant carried through the buildDictionary fold: every accepted
word has length at least 3 and its whole chain of nonempty prefixes in the
prefix set. -/
def dictInv (d : Dict) : Prop :=
  ∀ w ∈ d.words, 3 ≤ w.length ∧
    ∀ k, 1 ≤ k → k ≤ w.length → (⟨w.data.take k⟩ : String) ∈ d.prefixes

/-- Access of a grid tile; the solver only reads indices 0..15 of the
16-tile grid, so the default is never consulted there. -/
def tileAt (grid : List String) (i : Nat) : String :=
  grid.getD i ""

/-- Result record of solveGrid. -/
structure SolverData where
  allWords : List String

/-- The comparison of the solveGrid sort: a precedes b when a is longer,
or the lengths are equal and a is lexicographically no greater (the JS
comparator returns b.length - a.length, and on equal lengths
a.localeCompare(b), which on lowercase ASCII words coincides with
code-unit order). -/
def solverLE (a b : String) : Prop :=
  b.length < a.length ∨ (a.length = b.length ∧ a ≤ b)

instance : DecidableRel solverLE := fun a b => by
  unfold solverLE; infer_instance

instance : IsTotal String solverLE := by
  constructor
  intro a b
  unfold solverLE
  rcases lt_trichotomy a.length b.length with h | h | h
  · exact Or.inr (Or.inl h)
  · rcases le_total a b with hab | hab
    · exact Or.inl (Or.inr ⟨h, hab⟩)
    · exact Or.inr (Or.inr ⟨h.symm, hab⟩)
  · exact Or.inl (Or.inl h)

instance : IsTrans String solverLE := by
  constructor
  intro a b c hab hbc
  unfold solverLE at hab hbc ⊢
  rcases hab with hab | ⟨hab1, hab2⟩
  · rcases hbc with hbc | ⟨hbc1, hbc2⟩
    · exact Or.inl (hbc.trans hab)
    · exact Or.inl (by omega)
  · rcases hbc with hbc | ⟨hbc1, hbc2⟩
    · exact Or.inl (by omega)
    · exact Or.inr ⟨by omega, hab2.trans hbc2⟩

instance : IsAntisymm String solverLE := by
  constructor
  intro a b hab hba
  unfold solverLE at hab hba
  rcases hab with hab | ⟨_, hab2⟩ <;> rcases hba with hba | ⟨hba1, hba2⟩
  · omega
  · omega
  · omega
  · exact le_antisymm hab2 hba2

/-- Insertion into the results set: the JS Set.add appends a string not
yet present (insertion order, deduplicated). -/
def addResult (acc : List String) (w : String) : List String :=
  if w ∈ acc then acc else acc ++ [w]

/-- Shallow embedding of the recursive dfs closure inside solveGrid.
The first argument is a fuel bound on the recursion depth: every
recursive call adds a fresh bit of the 16-bit visited mask, so the JS
recursion has depth at most 16 and fuel 16 at the top level reproduces
it exactly.  The accumulator models the mutable results set. -/
def dfs (grid : List String) (dict prefixes : Finset String) :
    Nat → Nat → Nat → String → List String → List String
  | 0, _, _, _, acc => acc
  | fuel + 1, index, visitedMask, current, acc =>
    let nextWord := current ++ tileAt grid index
    if nextWord ∉ prefixes then acc
    else
      let nextMask := visitedMask ||| (1 <<< index)
      let acc1 :=
        if 3 ≤ nextWord.length ∧ nextWord ∈ dict then addResult acc nextWord
        else acc
      (List.range 16).foldl
        (fun a n =>
          if nextMask.testBit n = false ∧ isAdjacent index n = true then
            dfs grid dict prefixes fuel n nextMask nextWord a
          else a)
        acc1

/-- Shallow embedding of solveGrid from src/app/play/page.tsx: the dfs is
started from each of the 16 cells with an empty mask and empty running
word, and the collected result set is sorted by descending length, then
ascending lexicographic order (List.insertionSort with the total order
solverLE models Array.from(results).sort(comparator)). -/
def solveGrid (grid : List String) (dict prefixes : Finset String) : SolverData :=
  let results :=
    (List.range 16).foldl (fun a i => dfs grid dict prefixes 16 i 0 "" a) []
  { allWords := List.insertionSort solverLE results }

/-- Concatenation of the tile strings along a path, the word a path
spells (the two-letter "qu" tile contributes both letters). -/
def spell (grid : List String) (p : List Nat) : String :=
  p.foldr (fun i s => tileAt grid i ++ s) ""

/-- A concrete 16-tile grid used by the evaluation witnesses: c, a, t in
the first row, filler x elsewhere. -/
def demoGrid : List String :=
  ["c", "a", "t", "x", "x", "x", "x", "x",
   "x", "x", "x", "x", "x", "x", "x", "x"]

/-- A concrete one-word dictionary set used by the evaluation witnesses. -/
def demoWords : Finset String := {"cat"}

/-- The prefix set matching demoWords. -/
def demoPres : Finset String := {"c", "ca", "cat"}

/-- Status of a submission, as in the Submission interface. -/
inductive SubStatus where
  | new
  | duplicate
  | invalid
deriving DecidableEq

/-- One recorded submission row. -/
structure SubmissionRec where
  word : String
  delta : Int
  status : SubStatus
deriving DecidableEq

/-- The part of the React component state that handleSubmit updates:
the running score and the set of found words. -/
structure GameState where
  score : Int
  found : Finset String
deriving DecidableEq

/-- Shallow embedding of the handleSubmit handler of PlayPage (the pure
state transition: recorded submission and next state).  The raw argument
is the current traced word before normalization; validWordSet is the set
of solver solutions for the active grid.  The score update mirrors
setScore(prev => Math.max(0, prev + delta)) in every branch. -/
def handleSubmit (validWordSet : Finset String) (st : GameState)
    (raw : String) : SubmissionRec × GameState :=
  let word := normalizeWord raw
  if word.length < 3 then
    (⟨if raw = "" then "(too short)" else raw, -1, SubStatus.invalid⟩,
     ⟨max 0 (st.score - 1), st.found⟩)
  else if word ∈ st.found then
    (⟨word, -1, SubStatus.duplicate⟩,
     ⟨max 0 (st.score + (-1)), st.found⟩)
  else if word ∈ validWordSet then
    (⟨word, (word.length : Int) - 2, SubStatus.new⟩,
     ⟨max 0 (st.score + ((word.length : Int) - 2)), insert word st.found⟩)
  else
    (⟨word, -1, SubStatus.invalid⟩,
     ⟨max 0 (st.score + (-1)), st.found⟩)

/-- A whole game: the sequence of submitted raw words folded through
handleSubmit from the fresh state (score 0, no found words). -/
def runGame (validWordSet : Finset String) (raws : List String) : GameState :=
  raws.foldl (fun st raw => (handleSubmit validWordSet st raw).2) ⟨0, ∅⟩

/-! ## Theorems -/

theorem mulberry32Out_lt (seed n : Nat) : mulberry32Out seed n < m32 :=
  Nat.mod_lt _ (by norm_num [m32])

theorem mulberry32Val_nonneg (seed n : Nat) : 0 ≤ mulberry32Val seed n := by
  unfold mulberry32Val
  positivity

theorem mulberry32Val_lt_one (seed n : Nat) : mulberry32Val seed n < 1 := by
  unfold mulberry32Val
  rw [div_lt_one (by norm_num)]
  have h := mulberry32Out_lt seed n
  exact_mod_cast h.trans_le (by norm_num [m32])

/-- C9: Generator range: for every seed, every value produced by successive
calls to the function returned by mulberry32 lies in the half-open
interval [0, 1).  (Stated for all natural seeds, which subsumes all 32-bit
seeds.) -/
theorem generator_range (seed n : Nat) :
    0 ≤ mulberry32Val seed n ∧ mulberry32Val seed n < 1 :=
  ⟨mulberry32Val_nonneg seed n, mulberry32Val_lt_one seed n⟩

theorem generateGridGo_length (f : Nat → ℚ) :
    ∀ n k, (generateGridGo f n k).length = n := by
  intro n
  induction n with
  | zero => intro k; simp [generateGridGo]
  | succ m ih =>
    intro k
    unfold generateGridGo
    by_cases h : f k < quChance <;> simp [h, ih]

theorem generateGrid_length (f : Nat → ℚ) : (generateGrid f).length = 16 :=
  generateGridGo_length f 16 0

/-- C1: Determinism of the id-to-grid pipeline: hashStringToSeed always
returns the same 32-bit unsigned integer (it is a pure function of the
input, and its value is below 2^32), and the composed pipeline
mulberry32(hashStringToSeed(s)) followed by generateGrid is likewise a
pure function of s yielding a 16-tile grid; two evaluations on the same
input are bit-identical. -/
theorem pipeline_deterministic (s : List Nat) :
    hashStringToSeed s < 4294967296 ∧
    hashStringToSeed s = hashStringToSeed s ∧
    gridOfId s = gridOfId s ∧
    (gridOfId s).length = 16 := by
  refine ⟨?_, rfl, rfl, generateGrid_length _⟩
  exact Nat.mod_lt _ (by norm_num [m32])

/-- C7: Adjacency characterization on the 16 board positions: isAdjacent
returns true exactly when the positions differ and their Chebyshev
distance (max of row distance and column distance, no wraparound) is 1;
as a consequence isAdjacent is symmetric and irreflexive. -/
theorem isAdjacent_characterization (a b : Nat) (ha : a < 16) (hb : b < 16) :
    (isAdjacent a b = true ↔
      a ≠ b ∧
        max (((a : Int) / 4 - (b : Int) / 4).natAbs)
            (((a : Int) % 4 - (b : Int) % 4).natAbs) = 1) ∧
    isAdjacent a b = isAdjacent b a ∧ isAdjacent a a = false := by
  have h : ∀ a : Nat, a < 16 → ∀ b : Nat, b < 16 →
      (isAdjacent a b = true ↔
        a ≠ b ∧
          max (((a : Int) / 4 - (b : Int) / 4).natAbs)
              (((a : Int) % 4 - (b : Int) % 4).natAbs) = 1) ∧
      isAdjacent a b = isAdjacent b a ∧ isAdjacent a a = false := by decide
  exact h a ha b hb

/-- Witness for C7 at the concrete positions a = 0, b = 1 (adjacent cells
of the first row). -/
theorem isAdjacent_characterization_witness :
    (isAdjacent 0 1 = true ↔
      (0 : Nat) ≠ 1 ∧
        max ((((0 : Nat) : Int) / 4 - ((1 : Nat) : Int) / 4).natAbs)
            ((((0 : Nat) : Int) % 4 - ((1 : Nat) : Int) % 4).natAbs) = 1) ∧
    isAdjacent 0 1 = isAdjacent 1 0 ∧ isAdjacent 0 0 = false :=
  isAdjacent_characterization 0 1 (by decide) (by decide)

theorem bagAt_isSome_of_lt {i : Int} (h0 : 0 ≤ i) (h : i < 43) :
    ∃ s, bagAt i = some s ∧ s ∈ LETTER_BAG := by
  have hlen : LETTER_BAG.length = 43 := by decide
  have hi : i.toNat < LETTER_BAG.length := by
    rw [hlen]; omega
  rcases List.get?_eq_get hi with hx
  refine ⟨LETTER_BAG.get ⟨i.toNat, hi⟩, ?_, List.get_mem _ _ _⟩
  simp [bagAt, h0, hx]

theorem generateGridGo_tiles (f : Nat → ℚ) (hf : ∀ n, 0 ≤ f n ∧ f n < 1) :
    ∀ n k t, t ∈ generateGridGo f n k →
      ∃ s, t = some s ∧ (s = "qu" ∨ s ∈ LETTER_BAG) := by
  intro n
  induction n with
  | zero => intro k t ht; simp [generateGridGo] at ht
  | succ m ih =>
    intro k t ht
    unfold generateGridGo at ht
    by_cases h : f k < quChance
    · simp only [if_pos h, List.mem_cons] at ht
      rcases ht with rfl | ht
      · exact ⟨"qu", rfl, Or.inl rfl⟩
      · exact ih _ _ ht
    · simp only [if_neg h, List.mem_cons] at ht
      rcases ht with rfl | ht
      · have hlen : (LETTER_BAG.length : ℚ) = 43 := by norm_num [LETTER_BAG]
        have h0 : (0 : ℚ) ≤ f (k + 1) := (hf (k + 1)).1
        have h1 : f (k + 1) < 1 := (hf (k + 1)).2
        have hfl0 : 0 ≤ ⌊f (k + 1) * (LETTER_BAG.length : ℚ)⌋ := by
          apply Int.floor_nonneg.mpr
          rw [hlen]; positivity
        have hfl1 : ⌊f (k + 1) * (LETTER_BAG.length : ℚ)⌋ < 43 := by
          have : f (k + 1) * (LETTER_BAG.length : ℚ) < 43 := by
            rw [hlen]
            nlinarith
          exact_mod_cast Int.floor_lt.mpr (by exact_mod_cast this)
        rcases bagAt_isSome_of_lt hfl0 hfl1 with ⟨s, hs, hmem⟩
        exact ⟨s, hs, Or.inr hmem⟩
      · exact ih _ _ ht

/-- C8: Grid generation cannot fail: whenever every draw of the random
source lies in [0, 1), generateGrid returns exactly 16 tiles and every
tile is a defined string, either "qu" or an in-bounds entry of the
43-element letter bag. -/
theorem generateGrid_total (f : Nat → ℚ) (hf : ∀ n, 0 ≤ f n ∧ f n < 1) :
    (generateGrid f).length = 16 ∧
    ∀ t ∈ generateGrid f, ∃ s, t = some s ∧ (s = "qu" ∨ s ∈ LETTER_BAG) :=
  ⟨generateGrid_length f, fun t ht => generateGridGo_tiles f hf 16 0 t ht⟩

/-- Witness for C8 at the constant-zero random source: all sixteen draws
are 0, each lies in [0, 1), and every resulting tile is defined. -/
theorem generateGrid_total_witness :
    (∀ n : Nat, 0 ≤ (fun _ : Nat => (0 : ℚ)) n ∧ (fun _ : Nat => (0 : ℚ)) n < 1) ∧
    ((generateGrid (fun _ => (0 : ℚ))).length = 16 ∧
      ∀ t ∈ generateGrid (fun _ => (0 : ℚ)),
        ∃ s, t = some s ∧ (s = "qu" ∨ s ∈ LETTER_BAG)) :=
  ⟨fun _ => by norm_num,
   generateGrid_total (fun _ => (0 : ℚ)) (fun _ => by norm_num)⟩

theorem mem_foldl_insert (l : List String) :
    ∀ (s : Finset String) (x : String),
      x ∈ s ∨ x ∈ l → x ∈ l.foldl (fun ps p => insert p ps) s := by
  induction l with
  | nil => intro s x hx; simpa using hx.resolve_right (by simp)
  | cons a l ih =>
    intro s x hx
    simp only [List.foldl_cons]
    apply ih
    rcases hx with hx | hx
    · exact Or.inl (Finset.mem_insert_of_mem hx)
    · rcases List.mem_cons.mp hx with rfl | hx
      · exact Or.inl (Finset.mem_insert_self _ _)
      · exact Or.inr hx

theorem addLine_prefixes_mono (d : Dict) (line : String) :
    d.prefixes ⊆ (addLine d line).prefixes := by
  unfold addLine
  by_cases h1 : normalizeWord (trimLine line) = "" ∨
      (normalizeWord (trimLine line)).length < 3
  · simp [h1]
  · by_cases h2 : ¬ isLowerAlpha (normalizeWord (trimLine line))
    · simp [h1, h2]
    · simp only [h1, h2, if_false, if_true, ite_false, ite_true]
      intro x hx
      exact mem_foldl_insert _ _ _ (Or.inl hx)

theorem addLine_inv (d : Dict) (line : String) (h : dictInv d) :
    dictInv (addLine d line) := by
  have hmono := addLine_prefixes_mono d line
  unfold addLine at hmono ⊢
  by_cases h1 : normalizeWord (trimLine line) = "" ∨
      (normalizeWord (trimLine line)).length < 3
  · simpa [h1] using h
  · by_cases h2 : ¬ isLowerAlpha (normalizeWord (trimLine line))
    · simpa [h1, h2] using h
    · simp only [h1, h2, if_false, ite_false, ite_true] at hmono ⊢
      intro w hw
      rcases Finset.mem_insert.mp hw with rfl | hw
      · constructor
        · push_neg at h1
          omega
        · intro k hk1 hk2
          apply mem_foldl_insert
          refine Or.inr ?_
          unfold prefixChain
          simp only [List.mem_map, List.mem_range]
          exact ⟨k - 1, by omega, by congr 1; congr 1; omega⟩
      · rcases h w hw with ⟨h3, hpre⟩
        exact ⟨h3, fun k hk1 hk2 => hmono (hpre k hk1 hk2)⟩

theorem buildDictionary_inv (rawText : String) :
    dictInv (buildDictionary rawText) := by
  unfold buildDictionary
  generalize splitLines rawText = lines
  have : ∀ (l : List String) (d : Dict), dictInv d → dictInv (l.foldl addLine d) := by
    intro l
    induction l with
    | nil => intro d hd; simpa using hd
    | cons a l ih => intro d hd; exact ih _ (addLine_inv d a hd)
  apply this
  intro w hw
  simp at hw

theorem buildDictionary_word_length (rawText : String) (w : String)
    (hw : w ∈ (buildDictionary rawText).words) : 3 ≤ w.length :=
  (buildDictionary_inv rawText w hw).1

theorem buildDictionary_closed (rawText : String) (w : String)
    (hw : w ∈ (buildDictionary rawText).words)
    (k : Nat) (hk1 : 1 ≤ k) (hk2 : k ≤ w.length) :
    (⟨w.data.take k⟩ : String) ∈ (buildDictionary rawText).prefixes :=
  (buildDictionary_inv rawText w hw).2 k hk1 hk2

/-- C5: Prefix-closure invariant of the dictionary index: for every raw
input text, every word w accepted into the word set has each of its
prefixes of lengths 1 through len(w) present in the prefix set; in
particular the word set is a subset of the prefix set. -/
theorem buildDictionary_prefix_closed (rawText : String) (w : String)
    (hw : w ∈ (buildDictionary rawText).words) :
    (∀ k, 1 ≤ k → k ≤ w.length →
      (⟨w.data.take k⟩ : String) ∈ (buildDictionary rawText).prefixes) ∧
    w ∈ (buildDictionary rawText).prefixes := by
  refine ⟨buildDictionary_closed rawText w hw, ?_⟩
  have h3 := buildDictionary_word_length rawText w hw
  have h := buildDictionary_closed rawText w hw w.length (by omega) le_rfl
  have he : (⟨w.data.take w.length⟩ : String) = w := by
    obtain ⟨l⟩ := w
    show (⟨l.take (String.length ⟨l⟩)⟩ : String) = ⟨l⟩
    rw [show String.length ⟨l⟩ = l.length from rfl, List.take_length]
  rwa [he] at h

/-- Witness for C5 on the raw text "cat", whose single accepted word is
"cat": its prefixes of lengths 1, 2, 3 are present, and the word itself is
in the prefix set. -/
theorem buildDictionary_prefix_closed_witness :
    (∀ k, 1 ≤ k → k ≤ "cat".length →
      (⟨"cat".data.take k⟩ : String) ∈ (buildDictionary "cat").prefixes) ∧
    "cat" ∈ (buildDictionary "cat").prefixes :=
  buildDictionary_prefix_closed "cat" "cat" (by decide)

theorem foldl_acc_mono {α : Type} (f : List String → α → List String)
    (h : ∀ a x, a ⊆ f a x) :
    ∀ (l : List α) (a : List String), a ⊆ l.foldl f a := by
  intro l
  induction l with
  | nil => intro a; simp
  | cons x l ih =>
    intro a
    simp only [List.foldl_cons]
    exact (h a x).trans (ih (f a x))

theorem foldl_acc_sound {α : Type} (f : List String → α → List String)
    (Q : α → Prop) (w : String) :
    ∀ (l : List α) (a : List String),
      (∀ x ∈ l, ∀ a', w ∈ f a' x → w ∈ a' ∨ Q x) →
      w ∈ l.foldl f a → w ∈ a ∨ ∃ x ∈ l, Q x := by
  intro l
  induction l with
  | nil => intro a _ hw; exact Or.inl hw
  | cons x l ih =>
    intro a hstep hw
    simp only [List.foldl_cons] at hw
    rcases ih (f a x) (fun y hy => hstep y (List.mem_cons_of_mem x hy)) hw with
      hw | ⟨y, hy, hQ⟩
    · rcases hstep x (List.mem_cons_self x l) a hw with hw | hQ
      · exact Or.inl hw
      · exact Or.inr ⟨x, List.mem_cons_self x l, hQ⟩
    · exact Or.inr ⟨y, List.mem_cons_of_mem x hy, hQ⟩

theorem foldl_acc_complete {α : Type} (f : List String → α → List String)
    (hmono : ∀ a x, a ⊆ f a x) (w : String) (x : α) :
    ∀ (l : List α) (a : List String), x ∈ l → (∀ a', w ∈ f a' x) →
      w ∈ l.foldl f a := by
  intro l
  induction l with
  | nil => intro a hx; simp at hx
  | cons y l ih =>
    intro a hx hf
    rcases List.mem_cons.mp hx with rfl | hx
    · simp only [List.foldl_cons]
      exact foldl_acc_mono f hmono l (f a x) (hf a)
    · simp only [List.foldl_cons]
      exact ih (f a y) hx hf

theorem foldl_acc_nodup {α : Type} (f : List String → α → List String)
    (h : ∀ a x, a.Nodup → (f a x).Nodup) :
    ∀ (l : List α) (a : List String), a.Nodup → (l.foldl f a).Nodup := by
  intro l
  induction l with
  | nil => intro a ha; simpa using ha
  | cons x l ih =>
    intro a ha
    simp only [List.foldl_cons]
    exact ih (f a x) (h a x ha)

theorem addResult_subset (acc : List String) (w : String) :
    acc ⊆ addResult acc w := by
  unfold addResult
  by_cases h : w ∈ acc
  · simp [h]
  · simp [h, List.subset_append_left]

theorem addResult_nodup (acc : List String) (w : String) (h : acc.Nodup) :
    (addResult acc w).Nodup := by
  unfold addResult
  by_cases hw : w ∈ acc
  · simpa [hw] using h
  · simp [hw, List.nodup_append, h]

theorem dfs_nodup (grid : List String) (dict prefixes : Finset String) :
    ∀ (fuel index visitedMask : Nat) (current : String) (acc : List String),
      acc.Nodup → (dfs grid dict prefixes fuel index visitedMask current acc).Nodup := by
  intro fuel
  induction fuel with
  | zero => intro _ _ _ acc h; simpa [dfs] using h
  | succ fuel ih =>
    intro index visitedMask current acc h
    unfold dfs
    dsimp only
    split_ifs with hp hd
    · apply foldl_acc_nodup
      · intro a n ha
        split_ifs with hc
        · exact ih n _ _ a ha
        · exact ha
      · exact addResult_nodup acc _ h
    · apply foldl_acc_nodup
      · intro a n ha
        split_ifs with hc
        · exact ih n _ _ a ha
        · exact ha
      · exact h
    · exact h

theorem solveGrid_results_nodup (grid : List String) (dict prefixes : Finset String) :
    ((List.range 16).foldl (fun a i => dfs grid dict prefixes 16 i 0 "" a)
      []).Nodup := by
  apply foldl_acc_nodup
  · intro a i ha
    exact dfs_nodup grid dict prefixes 16 i 0 "" a ha
  · exact List.nodup_nil

/-- C6: Output ordering: the list returned by solveGrid is sorted by
descending word length, and among words of equal length by ascending
lexicographic order, and it has no duplicate entries. -/
theorem solveGrid_ordering (grid : List String) (dict prefixes : Finset String) :
    List.Pairwise
      (fun a b : String => b.length < a.length ∨ (a.length = b.length ∧ a < b))
      (solveGrid grid dict prefixes).allWords ∧
    (solveGrid grid dict prefixes).allWords.Nodup := by
  have hs : List.Pairwise solverLE (solveGrid grid dict prefixes).allWords :=
    List.sorted_insertionSort solverLE _
  have hn : (solveGrid grid dict prefixes).allWords.Nodup := by
    unfold solveGrid
    exact ((List.perm_insertionSort solverLE _).nodup_iff).mpr
      (solveGrid_results_nodup grid dict prefixes)
  refine ⟨?_, hn⟩
  have := List.Pairwise.and hs hn
  refine this.imp ?_
  rintro a b ⟨hle, hne⟩
  rcases hle with h | ⟨h1, h2⟩
  · exact Or.inl h
  · exact Or.inr ⟨h1, lt_of_le_of_ne h2 hne⟩

theorem spell_nil (grid : List String) : spell grid [] = "" := rfl

theorem spell_cons (grid : List String) (i : Nat) (p : List Nat) :
    spell grid (i :: p) = tileAt grid i ++ spell grid p := rfl

theorem spell_single (grid : List String) (i : Nat) :
    spell grid [i] = tileAt grid i := by
  rw [spell_cons, spell_nil, String.append_empty]

theorem spell_append (grid : List String) (p q : List Nat) :
    spell grid (p ++ q) = spell grid p ++ spell grid q := by
  induction p with
  | nil => rw [List.nil_append, spell_nil, String.empty_append]
  | cons i p ih =>
    rw [List.cons_append, spell_cons, spell_cons, ih, String.append_assoc]

theorem testBit_lor_high (m i : Nat) : (m ||| (1 <<< i)).testBit i = true := by
  rw [Nat.testBit_lor, Nat.shiftLeft_eq, one_mul, Nat.testBit_two_pow_self,
    Bool.or_true]

theorem testBit_lor_low {m j : Nat} (i : Nat)
    (h : (m ||| (1 <<< i)).testBit j = false) : m.testBit j = false := by
  rw [Nat.testBit_lor] at h
  exact (Bool.or_eq_false_iff.mp h).1

theorem testBit_lor_of_ne {m i j : Nat} (hm : m.testBit j = false)
    (hij : i ≠ j) : (m ||| (1 <<< i)).testBit j = false := by
  rw [Nat.testBit_lor, hm, Nat.shiftLeft_eq, one_mul,
    Nat.testBit_two_pow_of_ne hij, Bool.or_self]

theorem dfs_mono (grid : List String) (dict prefixes : Finset String) :
    ∀ (fuel index visitedMask : Nat) (current : String) (acc : List String),
      acc ⊆ dfs grid dict prefixes fuel index visitedMask current acc := by
  intro fuel
  induction fuel with
  | zero => intro _ _ _ acc; simp [dfs]
  | succ fuel ih =>
    intro index visitedMask current acc
    unfold dfs
    dsimp only
    have hstep : ∀ (a : List String) (n : Nat),
        a ⊆ (if (visitedMask ||| (1 <<< index)).testBit n = false ∧
              isAdjacent index n = true then
            dfs grid dict prefixes fuel n (visitedMask ||| (1 <<< index))
              (current ++ tileAt grid index) a
          else a) := by
      intro a n
      split_ifs with hc
      · exact ih n _ _ a
      · exact List.Subset.refl a
    split_ifs with hp hd
    · exact (addResult_subset acc _).trans (foldl_acc_mono _ hstep _ _)
    · exact foldl_acc_mono _ hstep _ _
    · exact List.Subset.refl acc

/-- Soundness invariant of one dfs call: any word in the result is either
already in the accumulator, or is a dictionary word spelled by a
nonempty duplicate-free path of adjacent cells that starts at the current
index and avoids the visited mask (except possibly at its head, whose bit
the call itself sets). -/
theorem dfs_sound (grid : List String) (dict prefixes : Finset String) :
    ∀ (fuel index visitedMask : Nat) (current : String) (acc : List String)
      (w : String), index < 16 →
      w ∈ dfs grid dict prefixes fuel index visitedMask current acc →
      w ∈ acc ∨
        (w ∈ dict ∧ ∃ p : List Nat,
          p.head? = some index ∧ p.Nodup ∧ (∀ j ∈ p, j < 16) ∧
          (∀ j ∈ p.tail, visitedMask.testBit j = false) ∧
          List.Chain' (fun a b => isAdjacent a b = true) p ∧
          w = current ++ spell grid p) := by
  intro fuel
  induction fuel with
  | zero => intro _ _ _ acc w _ hw; exact Or.inl (by simpa [dfs] using hw)
  | succ fuel ih =>
    intro index visitedMask current acc w hidx hw
    unfold dfs at hw
    dsimp only at hw
    by_cases hp : (current ++ tileAt grid index) ∉ prefixes
    · rw [if_pos hp] at hw
      exact Or.inl hw
    rw [if_neg hp] at hw
    -- soundness of each neighbor fold step
    have hstep : ∀ n ∈ List.range 16, ∀ a' : List String,
        w ∈ (if (visitedMask ||| (1 <<< index)).testBit n = false ∧
              isAdjacent index n = true then
            dfs grid dict prefixes fuel n (visitedMask ||| (1 <<< index))
              (current ++ tileAt grid index) a'
          else a') →
        w ∈ a' ∨
          ((visitedMask ||| (1 <<< index)).testBit n = false ∧
           isAdjacent index n = true ∧
           (w ∈ dict ∧ ∃ p : List Nat,
             p.head? = some n ∧ p.Nodup ∧ (∀ j ∈ p, j < 16) ∧
             (∀ j ∈ p.tail,
               (visitedMask ||| (1 <<< index)).testBit j = false) ∧
             List.Chain' (fun a b => isAdjacent a b = true) p ∧
             w = (current ++ tileAt grid index) ++ spell grid p)) := by
      intro n hn a' hwf
      split_ifs at hwf with hc
      · rcases ih n (visitedMask ||| (1 <<< index))
          (current ++ tileAt grid index) a' w
          (List.mem_range.mp hn) hwf with hw' | hw'
        · exact Or.inl hw'
        · exact Or.inr ⟨hc.1, hc.2, hw'⟩
      · exact Or.inl hwf
    have hfold := foldl_acc_sound
      (fun a n =>
        if (visitedMask ||| (1 <<< index)).testBit n = false ∧
            isAdjacent index n = true then
          dfs grid dict prefixes fuel n (visitedMask ||| (1 <<< index))
            (current ++ tileAt grid index) a
        else a)
      (fun n =>
        (visitedMask ||| (1 <<< index)).testBit n = false ∧
        isAdjacent index n = true ∧
        (w ∈ dict ∧ ∃ p : List Nat,
          p.head? = some n ∧ p.Nodup ∧ (∀ j ∈ p, j < 16) ∧
          (∀ j ∈ p.tail,
            (visitedMask ||| (1 <<< index)).testBit j = false) ∧
          List.Chain' (fun a b => isAdjacent a b = true) p ∧
          w = (current ++ tileAt grid index) ++ spell grid p))
      w (List.range 16) _ hstep hw
    rcases hfold with hw1 | ⟨n, _, hmaskn, hadj, hdict, p', hh, hnd, hlt, htail, hch, hweq⟩
    · -- the word was in the accumulator passed to the fold
      by_cases hd : 3 ≤ (current ++ tileAt grid index).length ∧
          (current ++ tileAt grid index) ∈ dict
      · rw [if_pos hd] at hw1
        unfold addResult at hw1
        by_cases hmem : (current ++ tileAt grid index) ∈ acc
        · rw [if_pos hmem] at hw1
          exact Or.inl hw1
        · rw [if_neg hmem] at hw1
          rcases List.mem_append.mp hw1 with hw1 | hw1
          · exact Or.inl hw1
          · obtain rfl : w = current ++ tileAt grid index := by simpa using hw1
            refine Or.inr ⟨hd.2, [index], rfl, List.nodup_singleton _, ?_, ?_, ?_, ?_⟩
            · intro j hj
              obtain rfl : j = index := by simpa using hj
              exact hidx
            · intro j hj
              simp at hj
            · exact List.chain'_singleton _
            · rw [spell_single]
      · rw [if_neg hd] at hw1
        exact Or.inl hw1
    · -- the word came out of a recursive call at neighbor n
      have hp'ne : p' ≠ [] := by
        rintro rfl
        simp at hh
      have hjb : ∀ j ∈ p', (visitedMask ||| (1 <<< index)).testBit j = false := by
        intro j hj
        rcases p' with _ | ⟨n', t⟩
        · cases hj
        · obtain rfl : n' = n := by simpa using hh
          rcases List.mem_cons.mp hj with rfl | hj
          · exact hmaskn
          · exact htail j hj
      have hni : ∀ j ∈ p', j ≠ index := by
        intro j hj heq
        subst heq
        have := hjb j hj
        rw [testBit_lor_high] at this
        cases this
      refine Or.inr ⟨hdict, index :: p', rfl, ?_, ?_, ?_, ?_, ?_⟩
      · exact List.nodup_cons.mpr ⟨fun hmem => hni index hmem rfl, hnd⟩
      · intro j hj
        rcases List.mem_cons.mp hj with rfl | hj
        · exact hidx
        · exact hlt j hj
      · intro j hj
        have hj' : j ∈ p' := by simpa using hj
        exact testBit_lor_low index (hjb j hj')
      · refine List.chain'_cons'.mpr ⟨?_, hch⟩
        intro b hb
        rw [hh] at hb
        obtain rfl : n = b := by simpa using hb
        exact hadj
      · rw [spell_cons, ← String.append_assoc]
        exact hweq

/-- Completeness invariant of one dfs call: a path whose cells are fresh
with respect to the visited mask (after its head, which the call visits
itself), whose every running word is in the prefix set, and whose full
word is a dictionary word of length at least 3 and fits in the remaining
fuel, is found by the search. -/
theorem dfs_complete (grid : List String) (dict prefixes : Finset String) :
    ∀ (p : List Nat) (fuel index visitedMask : Nat) (current : String)
      (acc : List String) (w : String),
      p.head? = some index →
      p.length ≤ fuel →
      p.Nodup →
      (∀ j ∈ p, j < 16) →
      (∀ j ∈ p.tail, visitedMask.testBit j = false) →
      List.Chain' (fun a b => isAdjacent a b = true) p →
      (∀ k, 1 ≤ k → k ≤ p.length →
        (current ++ spell grid (p.take k)) ∈ prefixes) →
      w = current ++ spell grid p →
      3 ≤ w.length →
      w ∈ dict →
      w ∈ dfs grid dict prefixes fuel index visitedMask current acc := by
  intro p
  induction p with
  | nil => intro fuel index _ _ _ _ hh; cases hh
  | cons i q ih =>
    intro fuel index visitedMask current acc w hh hfuel hnd hlt htail hch hpre hweq hwlen hwdict
    obtain rfl : i = index := by simpa using hh
    obtain ⟨f, rfl⟩ : ∃ f, fuel = f + 1 := by
      cases fuel
      · simp at hfuel
      · exact ⟨_, rfl⟩
    unfold dfs
    dsimp only
    have hp : (current ++ tileAt grid i) ∈ prefixes := by
      have h1 := hpre 1 le_rfl (by simp)
      simpa [spell_single] using h1
    rw [if_neg (not_not_intro hp)]
    have hstepmono : ∀ (a : List String) (n : Nat),
        a ⊆ (if (visitedMask ||| (1 <<< i)).testBit n = false ∧
              isAdjacent i n = true then
            dfs grid dict prefixes f n (visitedMask ||| (1 <<< i))
              (current ++ tileAt grid i) a
          else a) := by
      intro a n
      split_ifs with hc
      · exact dfs_mono grid dict prefixes f n _ _ a
      · exact List.Subset.refl a
    rcases q with _ | ⟨n, q'⟩
    · -- the path ends here: the word is added to the results now
      have hwx : w = current ++ tileAt grid i := by
        rw [hweq, spell_single]
      have hguard : 3 ≤ (current ++ tileAt grid i).length ∧
          (current ++ tileAt grid i) ∈ dict := by
        rw [← hwx]
        exact ⟨hwlen, hwdict⟩
      rw [if_pos hguard]
      apply foldl_acc_mono _ hstepmono
      unfold addResult
      by_cases hmem : (current ++ tileAt grid i) ∈ acc
      · rw [if_pos hmem, hwx]
        exact hmem
      · rw [if_neg hmem, hwx]
        exact List.mem_append_right _ (List.mem_singleton_self _)
    · -- the path continues at neighbor n
      have hnq : n ∈ i :: n :: q' := List.mem_cons_of_mem _ (List.mem_cons_self _ _)
      have hnlt : n < 16 := hlt n hnq
      have hinotq : i ∉ n :: q' := (List.nodup_cons.mp hnd).1
      have hcond : (visitedMask ||| (1 <<< i)).testBit n = false ∧
          isAdjacent i n = true := by
        constructor
        · refine testBit_lor_of_ne (htail n (List.mem_cons_self _ _)) ?_
          intro heq
          exact hinotq (heq ▸ List.mem_cons_self _ _)
        · exact (List.chain'_cons.mp hch).1
      apply foldl_acc_complete _ hstepmono w n _ _
        (List.mem_range.mpr hnlt)
      intro a'
      rw [if_pos hcond]
      apply ih f n (visitedMask ||| (1 <<< i))
        (current ++ tileAt grid i) a' w rfl
      · simpa using Nat.lt_succ_iff.mp (by simpa using hfuel)
      · exact (List.nodup_cons.mp hnd).2
      · intro j hj
        exact hlt j (List.mem_cons_of_mem _ hj)
      · intro j hj
        refine testBit_lor_of_ne (htail j (List.mem_cons_of_mem _ hj)) ?_
        intro heq
        exact hinotq (heq ▸ List.mem_cons_of_mem _ hj)
      · exact (List.chain'_cons.mp hch).2
      · intro k hk1 hk2
        have h := hpre (k + 1) (by omega)
          (by simp only [List.length_cons] at hk2 ⊢; omega)
        have htake : (i :: n :: q').take (k + 1) = i :: ((n :: q').take k) := rfl
        rw [htake, spell_cons, ← String.append_assoc] at h
        exact h
      · rw [hweq, spell_cons, ← String.append_assoc]
      · exact hwlen
      · exact hwdict

theorem mem_solveGrid_results (grid : List String) (dict prefixes : Finset String)
    (w : String) :
    w ∈ (solveGrid grid dict prefixes).allWords ↔
      w ∈ (List.range 16).foldl (fun a i => dfs grid dict prefixes 16 i 0 "" a) [] := by
  unfold solveGrid
  dsimp only
  exact List.mem_insertionSort solverLE

theorem strLength_pos {s : String} (h : s ≠ "") : 1 ≤ s.length := by
  obtain ⟨l⟩ := s
  rcases l with _ | ⟨c, cs⟩
  · exact absurd rfl h
  · show 1 ≤ (c :: cs).length
    simp

theorem strNe_empty_left {s t : String} (h : s ≠ "") : s ++ t ≠ "" := by
  intro he
  apply h
  have hd : (s ++ t).data = [] := by rw [he]
  rw [String.data_append] at hd
  exact String.ext (List.append_eq_nil.mp hd).1

/-- A witness path can be normalized so that its first tile is a nonempty
string: leading empty tiles contribute nothing to the spelled word and a
suffix of a witness path is again a witness path. -/
theorem witness_strip (grid : List String) :
    ∀ (p : List Nat), p.Nodup → (∀ j ∈ p, j < 16) →
      List.Chain' (fun a b => isAdjacent a b = true) p →
      spell grid p ≠ "" →
      ∃ (q : List Nat) (i : Nat), q.head? = some i ∧ tileAt grid i ≠ "" ∧
        q.Nodup ∧ (∀ j ∈ q, j < 16) ∧
        List.Chain' (fun a b => isAdjacent a b = true) q ∧
        spell grid q = spell grid p := by
  intro p
  induction p with
  | nil => intro _ _ _ hne; exact absurd rfl hne
  | cons i p ih =>
    intro hnd hlt hch hne
    by_cases ht : tileAt grid i = ""
    · have hsp : spell grid (i :: p) = spell grid p := by
        rw [spell_cons, ht, String.empty_append]
      rw [hsp] at hne
      obtain ⟨q, j, h1, h2, h3, h4, h5, h6⟩ :=
        ih hnd.of_cons (fun j hj => hlt j (List.mem_cons_of_mem _ hj)) hch.tail hne
      exact ⟨q, j, h1, h2, h3, h4, h5, by rw [hsp]; exact h6⟩
    · exact ⟨i :: p, i, rfl, ht, hnd, hlt, hch, rfl⟩

theorem path_length_le (p : List Nat) (hnd : p.Nodup)
    (hlt : ∀ j ∈ p, j < 16) : p.length ≤ 16 := by
  have h1 : p.toFinset.card = p.length := List.toFinset_card_of_nodup hnd
  have h2 : p.toFinset ⊆ Finset.range 16 := by
    intro j hj
    rw [List.mem_toFinset] at hj
    exact Finset.mem_range.mpr (hlt j hj)
  have h3 := Finset.card_le_card h2
  rw [h1, Finset.card_range] at h3
  exact h3

/-- Every nonempty partial spelling of a dictionary word along a path is
in the prefix set of the dictionary built from the raw text. -/
theorem spell_take_mem (raw : String) (grid : List String) (w : String)
    (hw : w ∈ (buildDictionary raw).words) (q : List Nat)
    (hsp : spell grid q = w) (k : Nat)
    (hne : spell grid (q.take k) ≠ "") :
    spell grid (q.take k) ∈ (buildDictionary raw).prefixes := by
  have hdecomp : spell grid (q.take k) ++ spell grid (q.drop k) = w := by
    rw [← spell_append, List.take_append_drop, hsp]
  have hdata : (spell grid (q.take k)).data ++ (spell grid (q.drop k)).data
      = w.data := by
    rw [← String.data_append, hdecomp]
  have htake : w.data.take (spell grid (q.take k)).data.length
      = (spell grid (q.take k)).data := by
    rw [← hdata]
    exact List.take_left _ _
  have hlen1 : 1 ≤ (spell grid (q.take k)).length := strLength_pos hne
  have hlen2 : (spell grid (q.take k)).length ≤ w.length := by
    show (spell grid (q.take k)).data.length ≤ w.data.length
    rw [← hdata]
    simp
  have hmem := buildDictionary_closed raw w hw _ hlen1 hlen2
  have heq : (⟨w.data.take (spell grid (q.take k)).length⟩ : String)
      = spell grid (q.take k) := by
    show (⟨w.data.take (spell grid (q.take k)).data.length⟩ : String)
      = spell grid (q.take k)
    rw [htake]
  rwa [heq] at hmem

/-- C2: Solver soundness: every word in the solveGrid output is a member
of the dictionary word set and is spelled by a witness path, a nonempty
sequence of distinct grid indices below 16 whose consecutive pairs
satisfy isAdjacent, the concatenation of whose tile strings equals the
word.  (Stated for arbitrary word and prefix sets, which subsumes the
sets produced by buildDictionary.) -/
theorem solveGrid_sound (grid : List String) (hg : grid.length = 16)
    (dict prefixes : Finset String) (w : String)
    (hw : w ∈ (solveGrid grid dict prefixes).allWords) :
    w ∈ dict ∧ ∃ p : List Nat, p ≠ [] ∧ p.Nodup ∧ (∀ j ∈ p, j < 16) ∧
      List.Chain' (fun a b => isAdjacent a b = true) p ∧
      spell grid p = w := by
  rw [mem_solveGrid_results] at hw
  have hstep : ∀ i ∈ List.range 16, ∀ a' : List String,
      w ∈ dfs grid dict prefixes 16 i 0 "" a' →
      w ∈ a' ∨
        (w ∈ dict ∧ ∃ p : List Nat,
          p.head? = some i ∧ p.Nodup ∧ (∀ j ∈ p, j < 16) ∧
          (∀ j ∈ p.tail, (0 : Nat).testBit j = false) ∧
          List.Chain' (fun a b => isAdjacent a b = true) p ∧
          w = "" ++ spell grid p) := by
    intro i hi a' hwf
    exact dfs_sound grid dict prefixes 16 i 0 "" a' w (List.mem_range.mp hi) hwf
  rcases foldl_acc_sound _ _ w (List.range 16) [] hstep hw with h | ⟨i, _, hQ⟩
  · cases h
  · obtain ⟨hdict, p, hh, hnd, hlt, _, hch, hweq⟩ := hQ
    refine ⟨hdict, p, ?_, hnd, hlt, hch, ?_⟩
    · rintro rfl
      cases hh
    · rw [hweq, String.empty_append]

/-- Witness for C2: on a 16-tile grid carrying c, a, t in the first row,
with word set containing exactly "cat" and its prefix set, the solver
output contains "cat", which is in the word set and has a witness path. -/
theorem solveGrid_sound_witness :
    "cat" ∈ demoWords ∧ ∃ p : List Nat, p ≠ [] ∧ p.Nodup ∧
      (∀ j ∈ p, j < 16) ∧
      List.Chain' (fun a b => isAdjacent a b = true) p ∧
      spell demoGrid p = "cat" :=
  solveGrid_sound demoGrid (by decide) demoWords demoPres "cat" (by decide)

/-- C3: Solver completeness: for a dictionary index built by
buildDictionary, every word of the word set spelled by some witness path
of adjacent distinct grid positions appears in the solveGrid output,
despite the prefix pruning. -/
theorem solveGrid_complete (raw : String) (grid : List String)
    (hg : grid.length = 16) (w : String)
    (hw : w ∈ (buildDictionary raw).words) (p : List Nat) (hne : p ≠ [])
    (hnd : p.Nodup) (hlt : ∀ j ∈ p, j < 16)
    (hch : List.Chain' (fun a b => isAdjacent a b = true) p)
    (hsp : spell grid p = w) :
    w ∈ (solveGrid grid (buildDictionary raw).words
        (buildDictionary raw).prefixes).allWords := by
  have hwlen : 3 ≤ w.length := buildDictionary_word_length raw w hw
  have hwne : spell grid p ≠ "" := by
    rw [hsp]
    intro h
    rw [h] at hwlen
    exact absurd hwlen (by decide)
  obtain ⟨q, i, hh, hti, hqnd, hqlt, hqch, hqsp⟩ :=
    witness_strip grid p hnd hlt hch hwne
  rw [hsp] at hqsp
  obtain ⟨t, rfl⟩ : ∃ t, q = i :: t := by
    rcases q with _ | ⟨a0, t⟩
    · cases hh
    · obtain rfl : a0 = i := by simpa using hh
      exact ⟨t, rfl⟩
  have hi16 : i < 16 := hqlt i (List.mem_cons_self _ _)
  rw [mem_solveGrid_results]
  apply foldl_acc_complete _
    (fun a x => dfs_mono grid _ _ 16 x 0 "" a) w i _ _
    (List.mem_range.mpr hi16)
  intro a'
  apply dfs_complete grid _ _ (i :: t) 16 i 0 "" a' w rfl
    (path_length_le _ hqnd hqlt) hqnd hqlt
    (fun j _ => Nat.zero_testBit j) hqch ?_ ?_ hwlen hw
  · intro k hk1 hk2
    rw [String.empty_append]
    apply spell_take_mem raw grid w hw _ hqsp
    obtain ⟨k0, rfl⟩ : ∃ k0, k = k0 + 1 := ⟨k - 1, by omega⟩
    rw [show (i :: t).take (k0 + 1) = i :: t.take k0 from rfl, spell_cons]
    exact strNe_empty_left hti
  · rw [String.empty_append, hqsp]

/-- C4: Scoring rule of the submission handler: with word the normalized
candidate, a word of fewer than 3 letters is invalid with delta -1; an
already-found word is a duplicate with delta -1; otherwise a member of
the solver solution set is new with delta length - 2; anything else is
invalid with delta -1; and the new score is the old score plus the delta,
clamped below at 0. -/
theorem handleSubmit_scoring (validWordSet : Finset String) (st : GameState)
    (raw : String) :
    (let word := normalizeWord raw
     (word.length < 3 →
        (handleSubmit validWordSet st raw).1.status = SubStatus.invalid ∧
        (handleSubmit validWordSet st raw).1.delta = -1) ∧
     (3 ≤ word.length → word ∈ st.found →
        (handleSubmit validWordSet st raw).1.status = SubStatus.duplicate ∧
        (handleSubmit validWordSet st raw).1.delta = -1) ∧
     (3 ≤ word.length → word ∉ st.found → word ∈ validWordSet →
        (handleSubmit validWordSet st raw).1.status = SubStatus.new ∧
        (handleSubmit validWordSet st raw).1.delta = (word.length : Int) - 2) ∧
     (3 ≤ word.length → word ∉ st.found → word ∉ validWordSet →
        (handleSubmit validWordSet st raw).1.status = SubStatus.invalid ∧
        (handleSubmit validWordSet st raw).1.delta = -1) ∧
     (handleSubmit validWordSet st raw).2.score =
        max 0 (st.score + (handleSubmit validWordSet st raw).1.delta)) := by
  intro word
  by_cases h1 : word.length < 3
  · have he : handleSubmit validWordSet st raw =
        (⟨if raw = "" then "(too short)" else raw, -1, SubStatus.invalid⟩,
         ⟨max 0 (st.score - 1), st.found⟩) := by
      unfold handleSubmit; rw [if_pos h1]
    rw [he]
    refine ⟨fun _ => ⟨rfl, rfl⟩, fun h _ => absurd h (by omega),
      fun h _ _ => absurd h (by omega), fun h _ _ => absurd h (by omega), ?_⟩
    show max 0 (st.score - 1) = max 0 (st.score + (-1))
    congr 1
  · by_cases h2 : word ∈ st.found
    · have he : handleSubmit validWordSet st raw =
          (⟨word, -1, SubStatus.duplicate⟩,
           ⟨max 0 (st.score + (-1)), st.found⟩) := by
        unfold handleSubmit; rw [if_neg h1, if_pos h2]
      rw [he]
      exact ⟨fun h => absurd h h1, fun _ _ => ⟨rfl, rfl⟩,
        fun _ hnf _ => absurd h2 hnf, fun _ hnf _ => absurd h2 hnf, rfl⟩
    · by_cases h3 : word ∈ validWordSet
      · have he : handleSubmit validWordSet st raw =
            (⟨word, (word.length : Int) - 2, SubStatus.new⟩,
             ⟨max 0 (st.score + ((word.length : Int) - 2)), insert word st.found⟩) := by
          unfold handleSubmit; rw [if_neg h1, if_neg h2, if_pos h3]
        rw [he]
        exact ⟨fun h => absurd h h1, fun _ hf => absurd hf h2,
          fun _ _ _ => ⟨rfl, rfl⟩, fun _ _ hnv => absurd h3 hnv, rfl⟩
      · have he : handleSubmit validWordSet st raw =
            (⟨word, -1, SubStatus.invalid⟩,
             ⟨max 0 (st.score + (-1)), st.found⟩) := by
          unfold handleSubmit; rw [if_neg h1, if_neg h2, if_neg h3]
        rw [he]
        exact ⟨fun h => absurd h h1, fun _ hf => absurd hf h2,
          fun _ _ hv => absurd hv h3, fun _ _ _ => ⟨rfl, rfl⟩, rfl⟩

/-- Witness for C4 with valid set containing exactly "cat", empty found
set, score 0, submitting "cat": the new-word branch fires with delta 1 and
the score becomes 1. -/
theorem handleSubmit_scoring_witness :
    (handleSubmit {"cat"} ⟨0, ∅⟩ "cat").1.status = SubStatus.new ∧
    (handleSubmit {"cat"} ⟨0, ∅⟩ "cat").1.delta =
      ((normalizeWord "cat").length : Int) - 2 :=
  (handleSubmit_scoring {"cat"} ⟨0, ∅⟩ "cat").2.2.1
    (by decide) (by decide) (by decide)

theorem handleSubmit_found_subset (validWordSet : Finset String)
    (st : GameState) (raw : String) (hst : ∀ w ∈ st.found, w ∈ validWordSet) :
    ∀ w ∈ (handleSubmit validWordSet st raw).2.found, w ∈ validWordSet := by
  unfold handleSubmit
  by_cases h1 : (normalizeWord raw).length < 3
  · simpa [h1] using hst
  · by_cases h2 : normalizeWord raw ∈ st.found
    · simpa [h1, h2] using hst
    · by_cases h3 : normalizeWord raw ∈ validWordSet
      · simp only [h1, h2, h3, if_neg, if_false, if_pos, ite_false, ite_true]
        intro w hw
        rcases Finset.mem_insert.mp hw with rfl | hw
        · exact h3
        · exact hst w hw
      · simpa [h1, h2, h3] using hst

theorem runGame_found_subset (validWordSet : Finset String)
    (raws : List String) :
    ∀ w ∈ (runGame validWordSet raws).found, w ∈ validWordSet := by
  unfold runGame
  have : ∀ (l : List String) (st : GameState),
      (∀ w ∈ st.found, w ∈ validWordSet) →
      ∀ w ∈ (l.foldl (fun st raw => (handleSubmit validWordSet st raw).2) st).found,
        w ∈ validWordSet := by
    intro l
    induction l with
    | nil => intro st hst; simpa using hst
    | cons a l ih =>
      intro st hst
      exact ih _ (handleSubmit_found_subset validWordSet st a hst)
  exact this raws ⟨0, ∅⟩ (by simp)

/-- C10: Invariant of the game state: starting from a fresh game, after
any sequence of submissions every word in the found set is a member of
the solver solution set of the active grid (handleSubmit only inserts a
word when its status is new, which requires membership in the set built
from the solveGrid output). -/
theorem game_found_words_valid (grid : List String)
    (dict prefixes : Finset String) (raws : List String) (w : String)
    (hw : w ∈ (runGame ((solveGrid grid dict prefixes).allWords.toFinset) raws).found) :
    w ∈ (solveGrid grid dict prefixes).allWords := by
  have := runGame_found_subset ((solveGrid grid dict prefixes).allWords.toFinset) raws w hw
  exact List.mem_toFinset.mp this

/-- Witness for C3: "cat" is accepted from the raw text "cat", spelled by
the path 0, 1, 2 along the first row of the demo grid, and indeed appears
in the solver output for the dictionary built from that text. -/
theorem solveGrid_complete_witness :
    "cat" ∈ (solveGrid demoGrid (buildDictionary "cat").words
        (buildDictionary "cat").prefixes).allWords :=
  solveGrid_complete "cat" demoGrid (by decide) "cat" (by decide) [0, 1, 2]
    (by decide) (by decide) (by decide)
    (by
      rw [List.chain'_cons, List.chain'_cons]
      exact ⟨by decide, by decide, List.chain'_singleton _⟩)
    (by decide)

/-- Witness for C10: after submitting "cat" in a game whose valid set is
the solver output of the demo grid, the found word "cat" is in that
solver output. -/
theorem game_found_words_valid_witness :
    "cat" ∈ (solveGrid demoGrid demoWords demoPres).allWords :=
  game_found_words_valid demoGrid demoWords demoPres ["cat"] "cat" (by decide)

end Boggle
